import Mathlib

/-!
# Verification of the todototum concurrent scanning engine

A shallow embedding, in Lean, of the core of the `todototum` repository:
the annotation matcher (`internal/todo/scan.go`), the gitignore engine and
repo-root resolver (`gitignore.go`, provided as an unnamed source part), and
the directory walk / worker pool of `ScanDirWithReader`.

Modelling conventions:
* Go strings are modelled as `List Char` (the sources only ever inspect them
  rune-by-rune or byte-by-byte on ASCII delimiters, where the two views agree).
* Filesystem paths are slash-separated; directory trees are an inductive type.
* Functions that Go writes with non-structural loops are given an explicit
  fuel argument so that they stay kernel-computable; every such function
  consumes at least one element of its fuelled list per step, and the wrappers
  pass `length + 1` fuel, so the fuel-exhausted branch is unreachable
  (fuel-congruence lemmas below make this precise where a theorem relies on it).
-/

namespace TodoTotum

/-! ## Character helpers (Go `unicode`/`strings` behaviour on the relevant sets) -/

/-- Go's `unicode.IsSpace` restricted to the Latin-1 range: space, `\t`, `\n`,
vertical tab, form feed, `\r`, NEL (U+0085) and NBSP (U+00A0).  (The scanner
only ever trims annotation text and ignore-file lines, which are code lines;
the higher Unicode space code points do not change any behaviour modelled here.) -/
def goIsSpace (c : Char) : Bool :=
  c = ' ' || c = '\t' || c = '\n' || c = Char.ofNat 11 || c = Char.ofNat 12 ||
  c = '\r' || c = Char.ofNat 0x85 || c = Char.ofNat 0xA0

/-- Go's `strings.TrimSpace`: drop whitespace from both ends. -/
def goTrimSpace (l : List Char) : List Char :=
  ((l.dropWhile goIsSpace).reverse.dropWhile goIsSpace).reverse

/-- Go `strings.TrimSpace` lifted to `String` (used for the explicit ignore-name set). -/
def goTrimSpaceString (s : String) : String :=
  String.mk (goTrimSpace s.toList)

/-- RE2's `\b` word characters: ASCII letters, digits and underscore. -/
def isWordChar (c : Char) : Bool :=
  ('a' ≤ c && c ≤ 'z') || ('A' ≤ c && c ≤ 'Z') || ('0' ≤ c && c ≤ '9') || c = '_'

/-- ASCII upper-casing, as performed by `strings.ToUpper` on the captured tag
and by `(?i)` case-folding on the marker keywords (whose letters all have
two-element ASCII fold orbits, so ASCII folding is exact here). -/
def asciiUpper (c : Char) : Char :=
  if 'a' ≤ c && c ≤ 'z' then Char.ofNat (c.toNat - 32) else c

/-! ## Annotation matcher

Embeds the compiled regular expression of `internal/todo/scan.go:23`:

    var pattern = regexp.MustCompile(`(?i)\b(TODO|FIXME|BUG|NOTE)\b:?(.+)?`)

together with `pattern.FindStringSubmatch` (leftmost match).  The four
alternatives start with pairwise distinct letters (`T`,`F`,`B`,`N`), so at any
position at most one keyword can match and RE2's leftmost-first search is the
left-to-right scan below.  `:?` and `(.+)?` both accept the empty string, so a
match is decided purely by the keyword and the two `\b` boundaries; group 2 is
the remainder of the line after the keyword and one optional colon. -/

/-- The four marker keywords, in the regex's alternation order. -/
def markerKeywords : List (List Char) :=
  ["TODO".toList, "FIXME".toList, "BUG".toList, "NOTE".toList]

/-- The keyword (if any) that matches case-insensitively at the head of `s`. -/
def keywordAtHead (s : List Char) : Option (List Char) :=
  markerKeywords.findSome? fun k =>
    if (s.take k.length).map asciiUpper = k then some k else none

/-- A whole-word keyword match at the head of `s`, `prev` being the character
just before `s` in the line (`none` at the start of the line): both `\b`
boundaries of the regex must hold. -/
def markerHere (prev : Option Char) (s : List Char) : Option (List Char) :=
  if prev.all (fun c => !isWordChar c) then
    match keywordAtHead s with
    | some k =>
        if ((s.drop k.length).head?.all fun c => !isWordChar c) then some k else none
    | none => none
  else none

/-- Left-to-right scan for the leftmost whole-word keyword occurrence;
returns the (canonical, upper-case) keyword and the rest of the line after it. -/
def findMarker (prev : Option Char) : List Char → Option (List Char × List Char)
  | [] =>
    match markerHere prev [] with
    | some k => some (k, [])
    | none => none
  | c :: s' =>
    match markerHere prev (c :: s') with
    | some k => some (k, (c :: s').drop k.length)
    | none => findMarker (some c) s'

/-- The optional colon right after the keyword (`:?`, greedy). -/
def stripColon : List Char → List Char
  | ':' :: r => r
  | r => r

/-- One line through the matcher: `pattern.FindStringSubmatch` followed by the
field extraction of `scanFileWithReader` (scan.go:145-151): tag is the
upper-cased keyword, text is group 2 trimmed of surrounding whitespace. -/
def matchLine (line : List Char) : Option (List Char × List Char) :=
  match findMarker none line with
  | some (k, rest) => some (k, goTrimSpace (stripColon rest))
  | none => none

/-! ## Go's `path.Match` glob matcher

The gitignore engine delegates to `path.Match` (Go standard library,
`src/path/match.go`); `matchPattern` in the repository wraps it with a
literal-equality fallback on `ErrBadPattern`.  The embedding below transcribes
`scanChunk`, `getEsc`, `matchChunk` and `Match`.  `matchChunk`'s character
class loop and `Match`'s outer loop are not structurally recursive, so they
carry fuel; each iteration consumes at least one character of the fuelled
list, and all call sites pass `length + 1`, so exhaustion is unreachable. -/

/-- The scan loop of `scanChunk`: split the pattern at the first `*` that is not
inside a `[...]` range, honouring backslash escapes.  Returns the chunk and
the remaining pattern (which starts at the `*`, if one was found). -/
def scanChunkLoop : Bool → List Char → List Char × List Char
  | _, [] => ([], [])
  | inrange, c :: rest =>
    if c = '\\' then
      match rest with
      | [] => ([c], [])
      | d :: rest' =>
        let p := scanChunkLoop inrange rest'
        (c :: d :: p.1, p.2)
    else if c = '[' then
      let p := scanChunkLoop true rest
      (c :: p.1, p.2)
    else if c = ']' then
      let p := scanChunkLoop false rest
      (c :: p.1, p.2)
    else if c = '*' && !inrange then ([], c :: rest)
    else
      let p := scanChunkLoop inrange rest
      (c :: p.1, p.2)

/-- Go `scanChunk`: strip leading `*`s (recording whether any were present),
then split off the chunk up to the next top-level `*`. -/
def scanChunk (p : List Char) : Bool × List Char × List Char :=
  let star := p.head? = some '*'
  let q := p.dropWhile (fun c => c = '*')
  let pr := scanChunkLoop false q
  (star, pr.1, pr.2)

/-- Go `getEsc`: read one (possibly escaped) character of a `[...]` range.
Errors (`ErrBadPattern`) on an empty chunk, a leading `-` or `]`, a dangling
backslash, or when nothing follows the character (the class is unterminated). -/
def getEsc (chunk : List Char) : Except Unit (Char × List Char) :=
  match chunk with
  | [] => Except.error ()
  | c :: rest =>
    if c = '-' || c = ']' then Except.error ()
    else
      match (if c = '\\' then rest else c :: rest) with
      | [] => Except.error ()
      | r :: tail => if tail.isEmpty then Except.error () else Except.ok (r, tail)

/-- The character-class loop of `matchChunk`: parse `lo(-hi)` ranges until the
closing `]` (which only closes after at least one range), reporting whether
`r` fell in any range and returning the chunk after the class.
Fuel: each iteration consumes at least one character of `chunk`. -/
def classLoop (r : Char) : Nat → Bool → Nat → List Char → Except Unit (Bool × List Char)
  | 0, _, _, _ => Except.error ()
  | fuel + 1, matched, nrange, chunk =>
    if chunk.head? = some ']' && nrange > 0 then Except.ok (matched, chunk.tail)
    else
      match getEsc chunk with
      | Except.error e => Except.error e
      | Except.ok (lo, chunk1) =>
        match (if chunk1.head? = some '-' then getEsc chunk1.tail else Except.ok (lo, chunk1)) with
        | Except.error e => Except.error e
        | Except.ok (hi, chunk2) =>
          classLoop r fuel (matched || (lo ≤ r && r ≤ hi)) (nrange + 1) chunk2

/-- Go `matchChunk`: match a star-free chunk against the head of `s`.
`Except.ok (some t)` is Go's `(t, true, nil)`, `Except.ok none` is
`("", false, nil)` (no match), `Except.error ()` is `ErrBadPattern`.
As in Go, after a failure the chunk is still consumed so that pattern-syntax
errors are detected; `failed` records the failure.
Fuel: each iteration consumes at least one character of `chunk`. -/
def matchChunk : Nat → List Char → List Char → Bool → Except Unit (Option (List Char))
  | 0, _, _, _ => Except.error ()
  | fuel + 1, chunk, s, failed0 =>
    match chunk with
    | [] => Except.ok (if failed0 then none else some s)
    | c :: rest =>
      let failed := failed0 || s.isEmpty
      if c = '[' then
        let r : Char := if failed then Char.ofNat 0 else s.headD (Char.ofNat 0)
        let s' := if failed then s else s.tail
        let negated := rest.head? = some '^'
        let chunk1 := if negated then rest.tail else rest
        match classLoop r (chunk1.length + 1) false 0 chunk1 with
        | Except.error e => Except.error e
        | Except.ok (m, chunk2) =>
          matchChunk fuel chunk2 s' (failed || (m = negated))
      else if c = '?' then
        let failed' := failed || s.head? = some '/'
        let s' := if failed then s else s.tail
        matchChunk fuel rest s' failed'
      else if c = '\\' then
        match rest with
        | [] => Except.error ()
        | d :: rest' =>
          let failed' := failed || !(s.head? = some d)
          let s' := if failed then s else s.tail
          matchChunk fuel rest' s' failed'
      else
        let failed' := failed || !(s.head? = some c)
        let s' := if failed then s else s.tail
        matchChunk fuel rest s' failed'

/-- The skip loop of `Match`'s `star` case: try to match the chunk after
skipping one more non-`/` character of `name` each time.  `hasRest` is
`len(pattern) > 0` in Go (a successful match that still leaves text is only
accepted when more pattern follows). -/
def starLoop (chunk : List Char) (hasRest : Bool) : List Char → Except Unit (Option (List Char))
  | [] => Except.ok none
  | c :: restName =>
    if c = '/' then Except.ok none
    else
      match matchChunk (chunk.length + 1) chunk restName false with
      | Except.error e => Except.error e
      | Except.ok (some t) =>
        if !hasRest && !t.isEmpty then starLoop chunk hasRest restName
        else Except.ok (some t)
      | Except.ok none => starLoop chunk hasRest restName

/-- The final loop of `Match`: before returning a no-error failure, check the rest
of the pattern for syntax errors by matching each chunk against itself.
Fuel: `scanChunk` strictly shrinks a nonempty pattern. -/
def validateRest : Nat → List Char → Except Unit Unit
  | 0, _ => Except.error ()
  | _, [] => Except.ok ()
  | fuel + 1, p@(_ :: _) =>
    let s := scanChunk p
    match matchChunk (s.2.1.length + 1) s.2.1 s.2.1 false with
    | Except.error e => Except.error e
    | Except.ok _ => validateRest fuel s.2.2

/-- Go `path.Match`'s main loop.  Fuel: `scanChunk` strictly shrinks a
nonempty pattern, and every recursive call continues with the shrunk rest. -/
def goPathMatch : Nat → List Char → List Char → Except Unit Bool
  | 0, _, _ => Except.error ()
  | _, [], name => Except.ok name.isEmpty
  | fuel + 1, p@(_ :: _), name =>
    let sc := scanChunk p
    let star := sc.1
    let chunk := sc.2.1
    let rest := sc.2.2
    if star && chunk.isEmpty then Except.ok (!name.contains '/')
    else
      match matchChunk (chunk.length + 1) chunk name false with
      | Except.error e => Except.error e
      | Except.ok (some t) =>
        if t.isEmpty || !rest.isEmpty then goPathMatch fuel rest t
        else if star then
          match starLoop chunk (!rest.isEmpty) name with
          | Except.error e => Except.error e
          | Except.ok (some t') => goPathMatch fuel rest t'
          | Except.ok none =>
            match validateRest (rest.length + 1) rest with
            | Except.error e => Except.error e
            | Except.ok _ => Except.ok false
        else
          match validateRest (rest.length + 1) rest with
          | Except.error e => Except.error e
          | Except.ok _ => Except.ok false
      | Except.ok none =>
        if star then
          match starLoop chunk (!rest.isEmpty) name with
          | Except.error e => Except.error e
          | Except.ok (some t') => goPathMatch fuel rest t'
          | Except.ok none =>
            match validateRest (rest.length + 1) rest with
            | Except.error e => Except.error e
            | Except.ok _ => Except.ok false
        else
          match validateRest (rest.length + 1) rest with
          | Except.error e => Except.error e
          | Except.ok _ => Except.ok false

/-- Go `path.Match pattern name`: `Except.error ()` is `ErrBadPattern`. -/
def pathMatch (pattern : List Char) (name : List Char) : Except Unit Bool :=
  goPathMatch (pattern.length + 1) pattern name

/-- The repository's `matchPattern` (gitignore source, lines 159-166): defer to
`path.Match`, and on an invalid pattern fall back to simple string equality. -/
def matchPattern (pattern : List Char) (name : List Char) : Bool :=
  match pathMatch pattern name with
  | Except.error _ => pattern == name
  | Except.ok ok => ok

/-! ## The gitignore engine

Transcribed from the repository's gitignore source (unnamed part, lines
22-157): rule parsing (`loadGitIgnore`'s per-line logic), `path.Base`, and
rule evaluation (`match`).  Candidate paths are already slash-separated in
this model, so `normalizePath` is the identity and is omitted. -/

/-- A single parsed ignore rule (`gitIgnoreRule` in the source). -/
structure gitIgnoreRule where
  pattern : List Char
  negative : Bool
  anchored : Bool
  dirOnly : Bool
  hasSlash : Bool
deriving DecidableEq, Repr

/-- One line of `loadGitIgnore` (lines 62-99): trim; drop blanks and `#`
comments; a leading `!` negates (a bare `!` is dropped); a trailing `/` makes
the rule directory-only; a leading `/` anchors it; an empty residue is
dropped. -/
def parseGitIgnoreLine (raw : List Char) : Option gitIgnoreRule :=
  let line := goTrimSpace raw
  if line.isEmpty || line.head? = some '#' then none
  else
    let neg := line.head? = some '!'
    let l1 := if neg then goTrimSpace line.tail else line
    if neg && l1.isEmpty then none
    else
      let dirOnly := l1.getLast? = some '/'
      let l2 := if dirOnly then l1.dropLast else l1
      let anchored := l2.head? = some '/'
      let l3 := if anchored then l2.tail else l2
      if l3.isEmpty then none
      else
        some { pattern := l3, negative := neg, anchored := anchored,
               dirOnly := dirOnly, hasSlash := l3.contains '/' }

/-- The scan of `loadGitIgnore` over the rule file's lines, in file order. -/
def loadGitIgnoreLines (ls : List (List Char)) : List gitIgnoreRule :=
  ls.filterMap parseGitIgnoreLine

/-- Go `path.Base`: `"."` for the empty path; otherwise strip trailing
slashes and keep everything after the last remaining `/` (`"/"` if the path
was all slashes). -/
def pathBase (p : List Char) : List Char :=
  if p.isEmpty then ['.']
  else
    let q := p.reverse.dropWhile (fun c => c = '/')
    let b := q.takeWhile (fun c => c != '/')
    if q.isEmpty then ['/'] else b.reverse

/-- The suffixes of `rel` that start just after a `/` (the inner loop of
`match`'s unanchored-with-slash case: `rel[i+1:]` for each `i` with
`rel[i] = '/'` and `i+1 < len rel`). -/
def slashSuffixes : List Char → List (List Char)
  | [] => []
  | c :: rest => (if c = '/' && !rest.isEmpty then [rest] else []) ++ slashSuffixes rest

/-- Whether a rule fires on `rel` (the per-rule guard structure of `match`,
lines 117-154): directory-only rules need `isDir`; anchored rules glob the
full path; unanchored slash-free rules glob the basename — and a directory
whose basename equals the pattern also counts; unanchored rules with a slash
glob the full path or any suffix starting after a `/` (the loop's first hit
and Go's `break` agree with `List.any` here because every hit writes the same
verdict). -/
def ruleMatches (r : gitIgnoreRule) (rel : List Char) (isDir : Bool) : Bool :=
  if r.dirOnly && !isDir then false
  else if r.anchored then matchPattern r.pattern rel
  else if !r.hasSlash then
    matchPattern r.pattern (pathBase rel) || (isDir && r.pattern == pathBase rel)
  else
    matchPattern r.pattern rel || (slashSuffixes rel).any (fun suf => matchPattern r.pattern suf)

/-- The per-rule update of `match`'s `matched` accumulator: a firing rule
overwrites the verdict with `!negative`; otherwise the verdict is kept.
(`continue` in the source only ever skips the remaining guards of the same
rule after the verdict was written, so the loop body is exactly this.) -/
def applyRule (matched : Bool) (r : gitIgnoreRule) (rel : List Char) (isDir : Bool) : Bool :=
  if ruleMatches r rel isDir then !r.negative else matched

/-- Go method `(*gitIgnore).match`: fold the rules in declaration order over a verdict
accumulator that starts at `false` (not excluded). -/
def gitIgnoreMatch (rules : List gitIgnoreRule) (rel : List Char) (isDir : Bool) : Bool :=
  rules.foldl (fun matched r => applyRule matched r rel isDir) false

/-! ## The repo-root resolver

`findRepoRoot` (gitignore source, lines 39-51) climbs `filepath.Dir` until a
directory containing a `.git` directory is found, returning the *input*
directory when the filesystem root is reached without a hit.  Directories are
modelled as lists of path components from the root (so `filepath.Dir` is
`dropLast` and the filesystem root is `[]`); the filesystem is abstracted to
the predicate `hasGitDir d` = "`os.Stat(d/.git)` succeeds and is a directory".
Fuel: each step drops one component. -/

def findRepoRootLoop (hasGitDir : List String → Bool) (start : List String) :
    Nat → List String → List String
  | 0, _ => start
  | fuel + 1, d =>
    if hasGitDir d then d
    else if d.isEmpty then start
    else findRepoRootLoop hasGitDir start fuel d.dropLast

/-- The function `findRepoRoot`: see `findRepoRootLoop`. -/
def findRepoRoot (hasGitDir : List String → Bool) (start : List String) : List String :=
  findRepoRootLoop hasGitDir start (start.length + 1) start

/-! ## The concurrent scanner (`ScanDirWithReader`, scan.go:32-127)

The filesystem below the scan root is a tree; file contents are the lines the
injected reader delivers, plus the error behaviour of `reader.Open` /
`bufio.Scanner.Err` (scan.go:132-153).  `filepath.WalkDir` is transcribed
from its documented semantics (`path/filepath`): the callback is invoked for
every entry; an `fs.SkipDir` from a directory's callback skips its contents,
from a file's callback it skips the rest of the containing directory; a
failing `Lstat` of the root or a failing `ReadDir` invokes the callback with
the error (for `ReadDir`, a second time, before walking whatever partial
listing was obtained); the callback's error, if any, is `WalkDir`'s return
value (with `SkipDir` mapped to nil).

The worker pool is modelled at its observable granularity: `jobs <- fileJob`
(scan.go:119) produces the job list in walk order; each worker's per-job unit
of work (scan the file, and merge the whole batch under one mutex hold,
scan.go:63-72) is `workerRun`; the aggregate is the concatenation of the
per-job batches in some scheduler-chosen order, i.e. a permutation of the
canonical `flatten` (theorem for claim C7 quantifies over that permutation).
Jobs carry their file's content, standing for what `reader.Open` on the job's
path delivers. -/

/-- What the reader delivers for one file: `openErr` models a failing
`reader.Open`; otherwise the lines the `bufio.Scanner` yields, and whether
`sc.Err()` reports a read error afterwards. -/
inductive FileContent where
  | openErr : FileContent
  | lines (ls : List String) (readErr : Bool) : FileContent
deriving DecidableEq, Repr

/-- A directory listing in first-child/next-sibling form (a rose forest
flattened into a plain inductive, which keeps every function on it
structurally recursive and hence computable by the kernel): `file name c next`
and `dir name readErr entries next` are a listing whose first entry is the
file/directory and whose remaining entries are `next`.  `readErr` on a
directory: `ReadDir` reports an error after producing the (partial) listing
`entries`. -/
inductive FSForest where
  | nil : FSForest
  | file (name : String) (content : FileContent) (next : FSForest) : FSForest
  | dir (name : String) (readErr : Bool) (entries : FSForest) (next : FSForest) : FSForest
deriving DecidableEq, Repr

/-- The entry at the scan root itself (what `Lstat(root)` describes). -/
inductive FSNode where
  | file (name : String) (content : FileContent) : FSNode
  | dir (name : String) (readErr : Bool) (entries : FSForest) : FSNode
deriving DecidableEq, Repr

/-- What the walk callback passed to `filepath.WalkDir` may return. -/
inductive WalkRet where
  | ok : WalkRet
  | skipDir : WalkRet
  | fail (e : String) : WalkRet
deriving DecidableEq, Repr

/-- What `walkDir` on a subtree returns upward. -/
inductive WalkOut where
  | ok : WalkOut
  | skipDir : WalkOut
  | fail (e : String) : WalkOut
deriving DecidableEq, Repr

/-- Go `fs.DirEntry` as the scan callback consumes it, plus the file content the
reader would deliver at that path (`none` for directories). -/
structure EntryInfo where
  name : String
  isDir : Bool
  content : Option FileContent
deriving DecidableEq, Repr

/-- A `fs.WalkDirFunc` over state `σ`: path relative to the scan root (as
components; `[]` is the root itself), the entry (`none` when the root stat
failed), the incoming error, and the state; returns the new state and the
callback's verdict. -/
def WalkFn (σ : Type) : Type :=
  List String → Option EntryInfo → Option String → σ → σ × WalkRet

/-- The sibling loop of `walkDir`, fused with the recursion into subtrees.
Processing a listing first runs `walkDir` on its head entry (callback; for
directories: `ReadDir`-error callback if any, then the entries), then
interprets its return: nil continues with the remaining entries, `SkipDir`
from a *file* breaks the loop (the enclosing `walkDir` then returns nil), any
other error propagates; `SkipDir` from a *directory* was already mapped to
nil inside its `walkDir`. -/
def walkEntries (fn : WalkFn σ) : List String → FSForest → σ → σ × WalkOut
  | _, FSForest.nil, s => (s, WalkOut.ok)
  | path, FSForest.file name c next, s =>
    let r := fn (path ++ [name]) (some ⟨name, false, some c⟩) none s
    match r.2 with
    | WalkRet.ok => walkEntries fn path next r.1
    | WalkRet.skipDir => (r.1, WalkOut.ok)
    | WalkRet.fail e => (r.1, WalkOut.fail e)
  | path, FSForest.dir name readErr entries next, s =>
    let p1 := path ++ [name]
    let r := fn p1 (some ⟨name, true, none⟩) none s
    match r.2 with
    | WalkRet.fail e => (r.1, WalkOut.fail e)
    | WalkRet.skipDir => walkEntries fn path next r.1
    | WalkRet.ok =>
      if readErr then
        let r2 := fn p1 (some ⟨name, true, none⟩) (some "readdir error") r.1
        match r2.2 with
        | WalkRet.fail e => (r2.1, WalkOut.fail e)
        | WalkRet.skipDir => walkEntries fn path next r2.1
        | WalkRet.ok =>
          let rb := walkEntries fn p1 entries r2.1
          match rb.2 with
          | WalkOut.fail e => (rb.1, WalkOut.fail e)
          | _ => walkEntries fn path next rb.1
      else
        let rb := walkEntries fn p1 entries r.1
        match rb.2 with
        | WalkOut.fail e => (rb.1, WalkOut.fail e)
        | _ => walkEntries fn path next rb.1

/-- Go `filepath.WalkDir(root, fn)`: `rootStat = none` models a failing
`Lstat(root)` (the callback is invoked once with the error); otherwise the
root entry is visited and, for a directory, its entries are walked.  The
returned `Option String` is `WalkDir`'s error, with `SkipDir` mapped to nil. -/
def walkDirTop (fn : WalkFn σ) (rootStat : Option FSNode) (s : σ) : σ × Option String :=
  match rootStat with
  | none =>
    let r := fn [] none (some "lstat root") s
    (r.1, match r.2 with | WalkRet.fail e => some e | _ => none)
  | some (FSNode.file name c) =>
    let r := fn [] (some ⟨name, false, some c⟩) none s
    (r.1, match r.2 with | WalkRet.fail e => some e | _ => none)
  | some (FSNode.dir name readErr entries) =>
    let r := fn [] (some ⟨name, true, none⟩) none s
    match r.2 with
    | WalkRet.skipDir => (r.1, none)
    | WalkRet.fail e => (r.1, some e)
    | WalkRet.ok =>
      if readErr then
        let r2 := fn [] (some ⟨name, true, none⟩) (some "readdir error") r.1
        match r2.2 with
        | WalkRet.skipDir => (r2.1, none)
        | WalkRet.fail e => (r2.1, some e)
        | WalkRet.ok =>
          let rb := walkEntries fn [] entries r2.1
          (rb.1, match rb.2 with | WalkOut.fail e => some e | _ => none)
      else
        let rb := walkEntries fn [] entries r.1
        (rb.1, match rb.2 with | WalkOut.fail e => some e | _ => none)

/-- Join path components with `/`; the empty list renders as `"."`
(`filepath.Rel` of a path to itself). -/
def joinPath : List String → List Char
  | [] => ['.']
  | [a] => a.toList
  | a :: b :: r => a.toList ++ '/' :: joinPath (b :: r)

/-- The join `joinPath` as a `String` (the `File` field of a record). -/
def joinPathString (l : List String) : String := String.mk (joinPath l)

/-- One queued file job: its path relative to the scan root, and the content
the reader delivers for it (see the section comment). -/
structure FileJob where
  rel : List String
  content : FileContent
deriving DecidableEq, Repr

/-- The walk callback of `ScanDirWithReader` (scan.go:78-126), with the job
queue as its state: swallow every incoming error (scan.go:79-82); for
directories skip `.git`, then the explicit ignore set, then gitignore-excluded
paths (relative to the repo root, directory form); for files drop
gitignore-excluded ones and enqueue the rest.  `rootRel` is the scan root
relative to the repo root, so `filepath.Rel(repoRoot, path)` is
`rootRel ++ path`. -/
def scanWalkFn (skip : String → Bool) (gi : Option (List gitIgnoreRule))
    (rootRel : List String) : WalkFn (List FileJob) :=
  fun path entry err jobs =>
    match err with
    | some _ => (jobs, WalkRet.ok)
    | none =>
      match entry with
      | none => (jobs, WalkRet.ok)
      | some e =>
        if e.isDir then
          if e.name = ".git" then (jobs, WalkRet.skipDir)
          else if skip e.name then (jobs, WalkRet.skipDir)
          else
            match gi with
            | some rules =>
              if gitIgnoreMatch rules (joinPath (rootRel ++ path)) true then
                (jobs, WalkRet.skipDir)
              else (jobs, WalkRet.ok)
            | none => (jobs, WalkRet.ok)
        else
          match gi with
          | some rules =>
            if gitIgnoreMatch rules (joinPath (rootRel ++ path)) false then
              (jobs, WalkRet.ok)
            else (jobs ++ [⟨path, e.content.getD FileContent.openErr⟩], WalkRet.ok)
          | none => (jobs ++ [⟨path, e.content.getD FileContent.openErr⟩], WalkRet.ok)

/-- An annotation record (`Todo`, scan.go:15-20). -/
structure Todo where
  file : String
  line : Nat
  tag : String
  text : String
deriving DecidableEq, Repr

/-- The line loop of `scanFileWithReader` (scan.go:139-152): 1-based line
numbers, one record per matching line, in line order. -/
def scanLinesFrom : Nat → List String → List (Nat × String × String)
  | _, [] => []
  | n, l :: ls =>
    match matchLine l.toList with
    | some (tag, text) => (n, String.mk tag, String.mk text) :: scanLinesFrom (n + 1) ls
    | none => scanLinesFrom (n + 1) ls

/-- One worker's unit of work for one job (scan.go:63-72 with
scan.go:131-154): open the file and scan it; on any error — a failing open,
or a read error reported by `sc.Err()` even after lines already matched —
merge nothing (`err == nil` guard); otherwise merge every record, tagged with
the job's display path. -/
def workerRun (j : FileJob) : List Todo :=
  match j.content with
  | FileContent.openErr => []
  | FileContent.lines ls readErr =>
    if readErr then []
    else (scanLinesFrom 1 ls).map fun t =>
      { file := joinPathString j.rel, line := t.1, tag := t.2.1, text := t.2.2 }

/-- The trimmed ignore-name membership set (scan.go:34-37:
`skip[strings.TrimSpace(d)] = true`). -/
def mkSkip (ignoreDirs : List String) : String → Bool :=
  fun name => (ignoreDirs.map goTrimSpaceString).contains name

/-- The scanner with its collaborators already resolved: walk the tree with
`scanWalkFn`, then aggregate the per-job record batches (canonical order;
claim C7's theorem covers every scheduler order) and return them with the
walk's error. -/
def ScanDirCore (skip : String → Bool) (gi : Option (List gitIgnoreRule))
    (rootRel : List String) (rootStat : Option FSNode) : List Todo × Option String :=
  let w := walkDirTop (scanWalkFn skip gi rootRel) rootStat []
  (((w.1.map workerRun).flatten), w.2)

/-- Just the job list of a scan (the sequence of `jobs <- fileJob` sends). -/
def scanJobsWith (skip : String → Bool) (gi : Option (List gitIgnoreRule))
    (rootRel : List String) (rootStat : Option FSNode) : List FileJob :=
  (walkDirTop (scanWalkFn skip gi rootRel) rootStat []).1

/-- Go function `ScanDirWithReader(root, ignoreDirs, reader)` (scan.go:32-127).
`absRoot` is the scan root as components from the filesystem root;
`hasGitDir` abstracts `os.Stat(d/.git)` (see `findRepoRoot`); `gitignoreAt d`
gives the lines of `d/.gitignore`, or `none` when the file cannot be opened
(`loadGitIgnore` then yields no rule set); `rootStat` is the tree under the
scan root (`none`: the root stat fails).  Steps: build the trimmed ignore
set, resolve the repo root, load the rules there, walk, aggregate. -/
def ScanDirWithReaderModel (absRoot : List String) (hasGitDir : List String → Bool)
    (gitignoreAt : List String → Option (List String)) (rootStat : Option FSNode)
    (ignoreDirs : List String) : List Todo × Option String :=
  let repoRoot := findRepoRoot hasGitDir absRoot
  ScanDirCore (mkSkip ignoreDirs)
    ((gitignoreAt repoRoot).map fun ls => loadGitIgnoreLines (ls.map String.toList))
    (absRoot.drop repoRoot.length) rootStat

/-- The job list of `ScanDirWithReaderModel`. -/
def scanJobs (absRoot : List String) (hasGitDir : List String → Bool)
    (gitignoreAt : List String → Option (List String)) (rootStat : Option FSNode)
    (ignoreDirs : List String) : List FileJob :=
  let repoRoot := findRepoRoot hasGitDir absRoot
  scanJobsWith (mkSkip ignoreDirs)
    ((gitignoreAt repoRoot).map fun ls => loadGitIgnoreLines (ls.map String.toList))
    (absRoot.drop repoRoot.length) rootStat

/-! ## Claim-side vocabulary and concrete instances used by the theorems -/

/-- The last character of `pre`, or `prev` if `pre` is empty: the character
standing immediately before a position in a line that has been split as
`pre ++ rest`, in a context whose own preceding character is `prev`. -/
def lastOr (pre : List Char) (prev : Option Char) : Option Char :=
  match pre.getLast? with
  | some c => some c
  | none => prev

/-- The line contains `k` as a whole word, case-insensitively: some
case-variant of `k` occurs with no word character adjacent on either side. -/
def WholeWordMarker (line k : List Char) : Prop :=
  ∃ pre mid post, line = pre ++ mid ++ post ∧ mid.map asciiUpper = k ∧
    (pre.getLast?.all fun c => !isWordChar c) = true ∧
    (post.head?.all fun c => !isWordChar c) = true

/-- The rule set parsed from the single rule-file line `"vendor/"`. -/
def vendorRules : List gitIgnoreRule := loadGitIgnoreLines ["vendor/".toList]

/-- A concrete scan root holding `main.go` (one marker) next to
`vendor/a.go` (one marker). -/
def twoFileTree : FSNode :=
  FSNode.dir "r" false
    (FSForest.file "main.go" (FileContent.lines ["// TODO: x"] false)
      (FSForest.dir "vendor" false
        (FSForest.file "a.go" (FileContent.lines ["// TODO: y"] false) FSForest.nil)
        FSForest.nil))

/-- An exclusion file with the single line `vendor/` sitting in directory
`r` (and nowhere else). -/
def vendorIgnoreAt : List String → Option (List String) :=
  fun d => if d = ["r"] then some ["vendor/"] else none

/-! ## Theorems -/

/-- C6: for every rule pattern on which the glob matcher reports a malformed
pattern (`ErrBadPattern`) and every candidate string, `matchPattern` degrades
to exact string equality rather than failing: it returns `true` exactly when
pattern and candidate are equal. -/
theorem c6_malformed_glob_degrades_to_equality (pattern name : List Char)
    (h : pathMatch pattern name = Except.error ()) :
    matchPattern pattern name = true ↔ pattern = name := by
  unfold matchPattern
  rw [h]
  exact beq_iff_eq ..

/-- Witness for C6 at the malformed pattern `"["` (the repository's own test
case): the glob matcher errors, and matching degrades to equality. -/
theorem c6_malformed_glob_degrades_to_equality_witness :
    pathMatch "[".toList "[".toList = Except.error () ∧
    matchPattern "[".toList "[".toList = true ∧
    matchPattern "[".toList "x".toList = false :=
  ⟨rfl,
   (c6_malformed_glob_degrades_to_equality "[".toList "[".toList rfl).mpr rfl,
   by decide⟩

/-- C9: per-file result merging is all-or-nothing.  A job whose open fails
contributes no records; a job whose read errors contributes no records, even
when lines already matched; a job that reads cleanly contributes every record
its lines produce, tagged with the job's display path. -/
theorem c9_per_file_merge_all_or_nothing (rel : List String) (ls : List String) :
    workerRun ⟨rel, FileContent.openErr⟩ = [] ∧
    workerRun ⟨rel, FileContent.lines ls true⟩ = [] ∧
    workerRun ⟨rel, FileContent.lines ls false⟩ =
      (scanLinesFrom 1 ls).map
        (fun t => { file := joinPathString rel, line := t.1, tag := t.2.1, text := t.2.2 }) :=
  ⟨rfl, rfl, rfl⟩

/-- Helper: the climb of `findRepoRootLoop` returns the start directory when
no prefix of the current directory (the directories it will visit) has the
marker. -/
theorem findRepoRootLoop_no_marker (hasGitDir : List String → Bool) (start : List String) :
    ∀ fuel (d : List String), (∀ k, hasGitDir (d.take k) = false) →
      findRepoRootLoop hasGitDir start fuel d = start
  | 0, _, _ => rfl
  | fuel + 1, d, hmark => by
    have h0 : hasGitDir d = false := by
      have h := hmark d.length
      rwa [List.take_length] at h
    by_cases he : d.isEmpty
    · simp [findRepoRootLoop, h0, he]
    · have hstep : findRepoRootLoop hasGitDir start (fuel + 1) d
          = findRepoRootLoop hasGitDir start fuel d.dropLast := by
        simp [findRepoRootLoop, h0, he]
      rw [hstep]
      refine findRepoRootLoop_no_marker hasGitDir start fuel d.dropLast ?_
      intro k
      rw [List.dropLast_eq_take, List.take_take]
      exact hmark _

/-- C8: for every directory none of whose ancestors (itself included, down to
the filesystem root) contains the repo marker directory, the repo-root
resolver returns the original input directory unchanged. -/
theorem c8_resolver_no_marker_returns_start (hasGitDir : List String → Bool)
    (start : List String) (h : ∀ k, hasGitDir (start.take k) = false) :
    findRepoRoot hasGitDir start = start :=
  findRepoRootLoop_no_marker hasGitDir start (start.length + 1) start h

/-- Witness for C8 on a concrete three-component directory in a filesystem
with no marker anywhere. -/
theorem c8_resolver_no_marker_returns_start_witness :
    findRepoRoot (fun _ => false) ["home", "user", "project"] = ["home", "user", "project"] :=
  c8_resolver_no_marker_returns_start (fun _ => false) ["home", "user", "project"]
    (fun _ => rfl)

/-- Helper: the scan's walk callback never returns an error — every branch
ends in `nil` or `SkipDir` (scan.go:78-126). -/
theorem scanWalkFn_no_fail (skip : String → Bool) (gi : Option (List gitIgnoreRule))
    (rootRel : List String) (path : List String) (entry : Option EntryInfo)
    (err : Option String) (jobs : List FileJob) :
    (scanWalkFn skip gi rootRel path entry err jobs).2 = WalkRet.ok ∨
    (scanWalkFn skip gi rootRel path entry err jobs).2 = WalkRet.skipDir := by
  unfold scanWalkFn
  rcases err with _ | e
  · rcases entry with _ | e
    · exact Or.inl rfl
    · dsimp only
      split
      · split
        · exact Or.inr rfl
        · split
          · exact Or.inr rfl
          · rcases gi with _ | rules
            · exact Or.inl rfl
            · dsimp only
              split
              · exact Or.inr rfl
              · exact Or.inl rfl
      · rcases gi with _ | rules
        · exact Or.inl rfl
        · dsimp only
          split
          · exact Or.inl rfl
          · exact Or.inl rfl
  · exact Or.inl rfl

/-- Helper: with the scan callback, the walk of a listing never produces an
error (`WalkOut.fail` would require a failing callback). -/
theorem walkEntries_scan_no_fail (skip : String → Bool) (gi : Option (List gitIgnoreRule))
    (rootRel : List String) :
    ∀ (f : FSForest) (path : List String) (jobs : List FileJob),
      (walkEntries (scanWalkFn skip gi rootRel) path f jobs).2 = WalkOut.ok := by
  intro f
  induction f with
  | nil => intro path jobs; rfl
  | file name c next ih =>
    intro path jobs
    rw [walkEntries]
    rcases scanWalkFn_no_fail skip gi rootRel (path ++ [name])
        (some ⟨name, false, some c⟩) none jobs with h | h
    · rw [h]
      exact ih path _
    · rw [h]
  | dir name readErr entries next ihE ihN =>
    intro path jobs
    rw [walkEntries]
    rcases scanWalkFn_no_fail skip gi rootRel (path ++ [name])
        (some ⟨name, true, none⟩) none jobs with h | h
    · rw [h]
      dsimp only
      by_cases hre : readErr
      · rw [if_pos hre]
        rcases scanWalkFn_no_fail skip gi rootRel (path ++ [name])
            (some ⟨name, true, none⟩) (some "readdir error") _ with h2 | h2
        · rw [h2]
          rw [ihE (path ++ [name]) _]
          exact ihN path _
        · rw [h2]
          exact ihN path _
      · rw [if_neg hre]
        rw [ihE (path ++ [name]) _]
        exact ihN path _
    · rw [h]
      exact ihN path _

/-- Helper: a scan never reports an error, whatever the filesystem looks
like: the callback swallows every error handed to it (including the root
stat's) and never returns one of its own, so `filepath.WalkDir`'s result —
which `ScanDirWithReader` passes through — is always nil. -/
theorem ScanDirCore_err_none (skip : String → Bool) (gi : Option (List gitIgnoreRule))
    (rootRel : List String) (rootStat : Option FSNode) :
    (ScanDirCore skip gi rootRel rootStat).2 = none := by
  unfold ScanDirCore walkDirTop
  rcases rootStat with _ | root
  · rfl
  · rcases root with ⟨name, c⟩ | ⟨name, readErr, entries⟩
    · dsimp only
      rcases scanWalkFn_no_fail skip gi rootRel [] (some ⟨name, false, some c⟩) none []
        with h | h <;> rw [h]
    · dsimp only
      rcases scanWalkFn_no_fail skip gi rootRel [] (some ⟨name, true, none⟩) none []
        with h | h <;> rw [h]
      · by_cases hre : readErr
        · rw [if_pos hre]
          rcases scanWalkFn_no_fail skip gi rootRel [] (some ⟨name, true, none⟩)
              (some "readdir error") _ with h2 | h2 <;> rw [h2]
          · rw [walkEntries_scan_no_fail skip gi rootRel entries [] _]
        · rw [if_neg hre]
          rw [walkEntries_scan_no_fail skip gi rootRel entries [] _]

/-- C1 (the code contradicts the claim): the claim says a structural failure
of the walk is returned as the scan's error.  In the code, the callback
returns nil for *every* incoming error — the root stat's included — and
never produces an error of its own, so the scan's returned error is nil in
all cases; at the claim's own failing input (a root whose stat fails) the
scan returns no records and a nil error instead of the failure. -/
theorem c1_scan_error_always_nil :
    (∀ (absRoot : List String) (hasGitDir : List String → Bool)
      (gitignoreAt : List String → Option (List String)) (rootStat : Option FSNode)
      (ignoreDirs : List String),
      (ScanDirWithReaderModel absRoot hasGitDir gitignoreAt rootStat ignoreDirs).2 = none) ∧
    ScanDirWithReaderModel ["missing"] (fun _ => false) (fun _ => none) none [] = ([], none) :=
  ⟨fun absRoot hasGitDir gitignoreAt rootStat ignoreDirs =>
    ScanDirCore_err_none (mkSkip ignoreDirs) _ _ rootStat, rfl⟩

/-- C10: every explicit ignore name is trimmed before entering the
membership set, so two ignore lists equal after trimming yield identical
scans; concretely the entry `" vendor "` makes the set hold exactly the name
`vendor` (and not `" vendor "` itself). -/
theorem c10_ignore_names_trimmed :
    (∀ l1 l2 : List String, l1.map goTrimSpaceString = l2.map goTrimSpaceString →
      ∀ (absRoot : List String) (hasGitDir : List String → Bool)
        (gitignoreAt : List String → Option (List String)) (rootStat : Option FSNode),
        ScanDirWithReaderModel absRoot hasGitDir gitignoreAt rootStat l1 =
        ScanDirWithReaderModel absRoot hasGitDir gitignoreAt rootStat l2) ∧
    mkSkip [" vendor "] "vendor" = true ∧ mkSkip [" vendor "] " vendor " = false := by
  refine ⟨?_, by decide, by decide⟩
  intro l1 l2 h absRoot hasGitDir gitignoreAt rootStat
  have hskip : mkSkip l1 = mkSkip l2 := by unfold mkSkip; rw [h]
  unfold ScanDirWithReaderModel
  rw [hskip]

/-- Witness for C10: the ignore lists `[" vendor "]` and `["vendor"]` produce
the same scan of a tree containing a `vendor` directory, and that scan skips
it. -/
theorem c10_ignore_names_trimmed_witness :
    ScanDirWithReaderModel ["r"] (fun _ => false) (fun _ => none) (some twoFileTree)
        [" vendor "] =
      ScanDirWithReaderModel ["r"] (fun _ => false) (fun _ => none) (some twoFileTree)
        ["vendor"] ∧
    ScanDirWithReaderModel ["r"] (fun _ => false) (fun _ => none) (some twoFileTree)
        [" vendor "] =
      ([{ file := "main.go", line := 1, tag := "TODO", text := "x" }], none) :=
  ⟨c10_ignore_names_trimmed.1 [" vendor "] ["vendor"] (by decide) ["r"]
      (fun _ => false) (fun _ => none) (some twoFileTree),
   by decide⟩

/-- Helper: folding one more rule onto the verdict. -/
theorem gitIgnoreMatch_append (rules : List gitIgnoreRule) (r : gitIgnoreRule)
    (rel : List Char) (isDir : Bool) :
    gitIgnoreMatch (rules ++ [r]) rel isDir =
      applyRule (gitIgnoreMatch rules rel isDir) r rel isDir := by
  unfold gitIgnoreMatch
  rw [List.foldl_append]
  rfl

/-- C4: rules are evaluated in declaration order and the last rule that fires
decides — the verdict is `!negative` of the last firing rule, `false` (not
excluded) if none fires; with the rule file `*.tmp` then `!keep.tmp`,
`keep.tmp` is not excluded and `drop.tmp` is excluded. -/
theorem c4_last_matching_rule_decides :
    (∀ (rules : List gitIgnoreRule) (rel : List Char) (isDir : Bool),
      gitIgnoreMatch rules rel isDir =
        match rules.reverse.find? (fun r => ruleMatches r rel isDir) with
        | some r => !r.negative
        | none => false) ∧
    gitIgnoreMatch (loadGitIgnoreLines ["*.tmp".toList, "!keep.tmp".toList])
      "keep.tmp".toList false = false ∧
    gitIgnoreMatch (loadGitIgnoreLines ["*.tmp".toList, "!keep.tmp".toList])
      "drop.tmp".toList false = true := by
  refine ⟨?_, by decide, by decide⟩
  intro rules rel isDir
  induction rules using List.reverseRecOn with
  | nil => rfl
  | append_singleton l r ih =>
    rw [gitIgnoreMatch_append, List.reverse_append]
    show applyRule (gitIgnoreMatch l rel isDir) r rel isDir = _
    unfold applyRule
    by_cases hm : ruleMatches r rel isDir
    · rw [if_pos hm]
      simp only [List.reverse_cons, List.reverse_nil, List.nil_append, List.cons_append,
        List.singleton_append]
      have hfind : List.find? (fun q => ruleMatches q rel isDir) (r :: l.reverse) = some r :=
        List.find?_cons_of_pos _ hm
      rw [hfind]
    · rw [if_neg hm]
      rw [ih]
      simp only [List.reverse_cons, List.reverse_nil, List.nil_append, List.cons_append,
        List.singleton_append]
      have hfind : List.find? (fun q => ruleMatches q rel isDir) (r :: l.reverse) =
          List.find? (fun q => ruleMatches q rel isDir) l.reverse :=
        List.find?_cons_of_neg _ (by simpa using hm)
      rw [hfind]

/-- C2 counterexample: a start directory with no repo marker anywhere above
it, holding an exclusion file with the single rule `vendor/`.  The claim says
no exclusion-file rules are applied; but the scan with that file present
drops `vendor/a.go`, while the identical scan with no exclusion file keeps
it — the rules were loaded from the start directory and applied. -/
theorem c2_counterexample_rules_applied_without_marker :
    ScanDirWithReaderModel ["r"] (fun _ => false) vendorIgnoreAt (some twoFileTree) [] =
      ([{ file := "main.go", line := 1, tag := "TODO", text := "x" }], none) ∧
    ScanDirWithReaderModel ["r"] (fun _ => false) (fun _ => none) (some twoFileTree) [] =
      ([{ file := "main.go", line := 1, tag := "TODO", text := "x" },
        { file := "vendor/a.go", line := 1, tag := "TODO", text := "y" }], none) :=
  ⟨by decide, by decide⟩

/-- C2 (amended): when no ancestor of the start (itself included) contains
the repo marker, the resolver indeed returns the start unchanged — but
ignore-rule loading is *not* skipped: the scan then behaves exactly as a scan
whose rules are loaded from the exclusion file of the starting directory
itself (so such rules are applied whenever that file exists). -/
theorem c2_amended_rules_loaded_at_start (absRoot : List String)
    (hasGitDir : List String → Bool) (gitignoreAt : List String → Option (List String))
    (rootStat : Option FSNode) (ignoreDirs : List String)
    (h : ∀ k, hasGitDir (absRoot.take k) = false) :
    findRepoRoot hasGitDir absRoot = absRoot ∧
    ScanDirWithReaderModel absRoot hasGitDir gitignoreAt rootStat ignoreDirs =
      ScanDirCore (mkSkip ignoreDirs)
        ((gitignoreAt absRoot).map fun ls => loadGitIgnoreLines (ls.map String.toList))
        [] rootStat := by
  have hr : findRepoRoot hasGitDir absRoot = absRoot :=
    findRepoRootLoop_no_marker hasGitDir absRoot (absRoot.length + 1) absRoot h
  refine ⟨hr, ?_⟩
  unfold ScanDirWithReaderModel
  rw [hr]
  simp only [List.drop_length]

/-- Witness for C2 (amended) at the counterexample's input: with no marker
anywhere, the scan of `twoFileTree` equals the scan that loads `vendor/`
from the start directory's own exclusion file. -/
theorem c2_amended_rules_loaded_at_start_witness :
    findRepoRoot (fun _ => false) ["r"] = ["r"] ∧
    ScanDirWithReaderModel ["r"] (fun _ => false) vendorIgnoreAt (some twoFileTree) [] =
      ScanDirCore (mkSkip [])
        ((vendorIgnoreAt ["r"]).map fun ls => loadGitIgnoreLines (ls.map String.toList))
        [] (some twoFileTree) :=
  c2_amended_rules_loaded_at_start ["r"] (fun _ => false) vendorIgnoreAt
    (some twoFileTree) [] (fun _ => rfl)

/-- C7: however the scheduler interleaves the workers' merges — i.e. for
every permutation `jobs'` of the enqueued job list — the total number of
records equals the sum of the per-file match counts, and the scan's own
result has exactly that length: no record is dropped or duplicated.  (The
queue/pool mechanics are abstracted to their observable effect: each job
contributes its whole batch exactly once, in some scheduler-chosen order;
within a file, `workerRun` preserves line order.) -/
theorem c7_record_count_independent_of_schedule (absRoot : List String)
    (hasGitDir : List String → Bool) (gitignoreAt : List String → Option (List String))
    (rootStat : Option FSNode) (ignoreDirs : List String) (jobs' : List FileJob)
    (h : jobs'.Perm (scanJobs absRoot hasGitDir gitignoreAt rootStat ignoreDirs)) :
    ((jobs'.map workerRun).flatten).length =
      ((scanJobs absRoot hasGitDir gitignoreAt rootStat ignoreDirs).map
        (fun j => (workerRun j).length)).sum ∧
    (ScanDirWithReaderModel absRoot hasGitDir gitignoreAt rootStat ignoreDirs).1.length =
      ((scanJobs absRoot hasGitDir gitignoreAt rootStat ignoreDirs).map
        (fun j => (workerRun j).length)).sum := by
  have key : ∀ js : List FileJob,
      ((js.map workerRun).flatten).length = (js.map fun j => (workerRun j).length).sum := by
    intro js
    rw [List.length_flatten, List.map_map]
    rfl
  constructor
  · rw [key jobs']
    exact ((h.map (fun j => (workerRun j).length)).sum_eq)
  · exact key (scanJobs absRoot hasGitDir gitignoreAt rootStat ignoreDirs)

/-- Witness for C7: a two-file scan processed in reversed job order still
yields exactly 2 records, the scan's own total. -/
theorem c7_record_count_independent_of_schedule_witness :
    (((scanJobs ["r"] (fun _ => false) (fun _ => none) (some twoFileTree) []).reverse.map
        workerRun).flatten).length =
      ((scanJobs ["r"] (fun _ => false) (fun _ => none) (some twoFileTree) []).map
        (fun j => (workerRun j).length)).sum ∧
    (ScanDirWithReaderModel ["r"] (fun _ => false) (fun _ => none)
        (some twoFileTree) []).1.length = 2 :=
  ⟨(c7_record_count_independent_of_schedule ["r"] (fun _ => false) (fun _ => none)
      (some twoFileTree) [] _ (List.reverse_perm _)).1,
   by decide⟩

/-- Helper: a joined path ending in the component `vendor` is some prefix
(empty or ending in `/`) followed by the characters `vendor`. -/
theorem joinPath_concat_vendor :
    ∀ l : List String, ∃ z, joinPath (l ++ ["vendor"]) = z ++ "vendor".toList ∧
      (z = [] ∨ z.getLast? = some '/')
  | [] => ⟨[], rfl, Or.inl rfl⟩
  | a :: l' => by
    obtain ⟨z, hz, hlast⟩ := joinPath_concat_vendor l'
    refine ⟨a.toList ++ '/' :: z, ?_, ?_⟩
    · have hstep : joinPath ((a :: l') ++ ["vendor"]) =
          a.toList ++ '/' :: joinPath (l' ++ ["vendor"]) := by
        cases l' with
        | nil => rfl
        | cons b r => rfl
      rw [hstep, hz]
      simp
    · right
      rw [List.getLast?_append_of_ne_nil _ (by simp)]
      rcases hlast with h | h
      · subst h; rfl
      · cases z with
        | nil => rfl
        | cons w ws =>
          rw [List.getLast?_cons_cons]
          exact h

/-- Helper: `path.Base` of a slash-terminated (or empty) prefix followed by
`vendor` is `vendor`. -/
theorem pathBase_slash_block_vendor (z : List Char)
    (h : z = [] ∨ z.getLast? = some '/') :
    pathBase (z ++ "vendor".toList) = "vendor".toList := by
  have hz : List.takeWhile (fun c => c != '/') z.reverse = [] := by
    rcases h with h | h
    · subst h; rfl
    · have h' : z.reverse.head? = some '/' := by rw [List.head?_reverse]; exact h
      cases hzr : z.reverse with
      | nil => rfl
      | cons a w =>
        rw [hzr] at h'
        have ha : a = '/' := by simpa using h'
        subst ha
        rfl
  have hv : "vendor".toList = ['v', 'e', 'n', 'd', 'o', 'r'] := rfl
  rw [hv]
  unfold pathBase
  have hne : (z ++ ['v', 'e', 'n', 'd', 'o', 'r']).isEmpty = false := by
    cases z <;> rfl
  rw [hne]
  simp only [Bool.false_eq_true, if_false]
  rw [List.reverse_append]
  have hrev : (['v', 'e', 'n', 'd', 'o', 'r'] : List Char).reverse =
      ['r', 'o', 'd', 'n', 'e', 'v'] := rfl
  rw [hrev]
  simp [List.cons_append, List.dropWhile_cons, List.takeWhile_cons, hz]

/-- Helper: `path.Base` of a joined component path whose last component is
`vendor` is `vendor`. -/
theorem pathBase_joinPath_vendor (l : List String) :
    pathBase (joinPath (l ++ ["vendor"])) = "vendor".toList := by
  obtain ⟨z, hz, hl⟩ := joinPath_concat_vendor l
  rw [hz]
  exact pathBase_slash_block_vendor z hl

/-- Helper: under the rule set `vendor/`, the ignore engine excludes, in
directory form, every path whose basename is `vendor`. -/
theorem vendorRules_match_dir (rel : List Char) (h : pathBase rel = "vendor".toList) :
    gitIgnoreMatch vendorRules rel true = true := by
  have hrm : ruleMatches ⟨"vendor".toList, false, false, true, false⟩ rel true = true := by
    unfold ruleMatches
    simp only [Bool.not_true, Bool.and_false, Bool.false_eq_true, if_false,
      Bool.not_false, if_true, h]
    decide
  have hv : vendorRules = [⟨"vendor".toList, false, false, true, false⟩] := by decide
  rw [hv]
  show applyRule false ⟨"vendor".toList, false, false, true, false⟩ rel true = true
  unfold applyRule
  rw [hrm]
  rfl

/-- Helper: under the rule set `vendor/`, the scan callback answers `SkipDir`
(without enqueuing anything) for every directory named `vendor`, whatever the
explicit skip set and wherever the directory sits. -/
theorem scanWalkFn_vendor_skips (skip : String → Bool) (rootRel : List String)
    (path : List String) (jobs : List FileJob) :
    scanWalkFn skip (some vendorRules) rootRel (path ++ ["vendor"])
      (some ⟨"vendor", true, none⟩) none jobs = (jobs, WalkRet.skipDir) := by
  have hm : gitIgnoreMatch vendorRules (joinPath (rootRel ++ (path ++ ["vendor"]))) true
      = true := by
    apply vendorRules_match_dir
    rw [← List.append_assoc]
    exact pathBase_joinPath_vendor (rootRel ++ path)
  unfold scanWalkFn
  by_cases hs : skip "vendor" <;> simp [hs, hm]

/-- Helper: the scan callback on a directory entry never changes the job
queue (directories are only skipped or descended into, scan.go:83-100). -/
theorem scanWalkFn_dir_jobs (skip : String → Bool) (gi : Option (List gitIgnoreRule))
    (rootRel : List String) (p : List String) (n : String) (cnt : Option FileContent)
    (jobs : List FileJob) :
    (scanWalkFn skip gi rootRel p (some ⟨n, true, cnt⟩) none jobs).1 = jobs := by
  unfold scanWalkFn
  by_cases h1 : n = ".git"
  · simp [h1]
  · by_cases h2 : skip n
    · simp [h1, h2]
    · rcases gi with _ | rules
      · simp [h1, h2]
      · by_cases h3 : gitIgnoreMatch rules (joinPath (rootRel ++ p)) true
        · simp [h1, h2, h3]
        · simp [h1, h2, h3]

/-- Helper: the scan callback on a file entry either leaves the queue alone
or appends exactly the file's job (scan.go:102-120). -/
theorem scanWalkFn_file_jobs (skip : String → Bool) (gi : Option (List gitIgnoreRule))
    (rootRel : List String) (p : List String) (n : String) (c : FileContent)
    (jobs : List FileJob) :
    (scanWalkFn skip gi rootRel p (some ⟨n, false, some c⟩) none jobs).1 = jobs ∨
    (scanWalkFn skip gi rootRel p (some ⟨n, false, some c⟩) none jobs).1 =
      jobs ++ [⟨p, c⟩] := by
  unfold scanWalkFn
  rcases gi with _ | rules
  · right; simp
  · by_cases h3 : gitIgnoreMatch rules (joinPath (rootRel ++ p)) false
    · left; simp [h3]
    · right; simp [h3]

/-- Helper: walking any listing under the rule set `vendor/` only ever
enqueues jobs none of whose ancestor directories (relative to the scan root)
is named `vendor`: every directory named `vendor` is answered with `SkipDir`
before descent, so nothing below it is visited. -/
theorem walkEntries_vendor_never_below (skip : String → Bool) (rootRel : List String) :
    ∀ (f : FSForest) (path : List String) (jobs : List FileJob),
      "vendor" ∉ path →
      (∀ j ∈ jobs, "vendor" ∉ j.rel.dropLast) →
      ∀ j ∈ (walkEntries (scanWalkFn skip (some vendorRules) rootRel) path f jobs).1,
        "vendor" ∉ j.rel.dropLast := by
  intro f
  induction f with
  | nil =>
    intro path jobs _ hj j hmem
    exact hj j hmem
  | file name c next ih =>
    intro path jobs hp hj
    rw [walkEntries]
    have hjobs1 : ∀ j ∈ (scanWalkFn skip (some vendorRules) rootRel (path ++ [name])
        (some ⟨name, false, some c⟩) none jobs).1, "vendor" ∉ j.rel.dropLast := by
      rcases scanWalkFn_file_jobs skip (some vendorRules) rootRel (path ++ [name])
          name c jobs with h | h
      · rw [h]; exact hj
      · rw [h]
        intro j hjm
        rcases List.mem_append.mp hjm with hin | hin
        · exact hj j hin
        · have hj' : j = ⟨path ++ [name], c⟩ := by simpa using hin
          subst hj'
          simpa [List.dropLast_concat] using hp
    rcases scanWalkFn_no_fail skip (some vendorRules) rootRel (path ++ [name])
        (some ⟨name, false, some c⟩) none jobs with h | h
    · rw [h]
      exact ih path _ hp hjobs1
    · rw [h]
      exact hjobs1
  | dir name readErr entries next ihE ihN =>
    intro path jobs hp hj
    rw [walkEntries]
    by_cases hname : name = "vendor"
    · subst hname
      rw [scanWalkFn_vendor_skips skip rootRel path jobs]
      exact ihN path jobs hp hj
    · have hstate : (scanWalkFn skip (some vendorRules) rootRel (path ++ [name])
          (some ⟨name, true, none⟩) none jobs).1 = jobs :=
        scanWalkFn_dir_jobs skip (some vendorRules) rootRel (path ++ [name]) name none jobs
      have hp1 : "vendor" ∉ path ++ [name] := by
        intro hmem
        rcases List.mem_append.mp hmem with hin | hin
        · exact hp hin
        · exact hname (List.mem_singleton.mp hin).symm
      rcases scanWalkFn_no_fail skip (some vendorRules) rootRel (path ++ [name])
          (some ⟨name, true, none⟩) none jobs with h | h
      · rw [h]
        dsimp only
        rw [hstate]
        have hrb := ihE (path ++ [name]) jobs hp1 hj
        by_cases hre : readErr
        · rw [if_pos hre]
          have hswallow : scanWalkFn skip (some vendorRules) rootRel (path ++ [name])
              (some ⟨name, true, none⟩) (some "readdir error") jobs = (jobs, WalkRet.ok) := rfl
          rw [hswallow]
          dsimp only
          rcases hout : (walkEntries (scanWalkFn skip (some vendorRules) rootRel)
              (path ++ [name]) entries jobs).2 with _ | _ | e
          · exact ihN path _ hp hrb
          · exact ihN path _ hp hrb
          · exact hrb
        · rw [if_neg hre]
          rcases hout : (walkEntries (scanWalkFn skip (some vendorRules) rootRel)
              (path ++ [name]) entries jobs).2 with _ | _ | e
          · exact ihN path _ hp hrb
          · exact ihN path _ hp hrb
          · exact hrb
      · rw [h]
        rw [hstate]
        exact ihN path jobs hp hj

/-- Helper: lifting `walkEntries_vendor_never_below` through the root visit:
a whole scan under the rule set `vendor/` never enqueues a job lying below a
directory named `vendor`. -/
theorem scanJobsWith_vendor_never_below (skip : String → Bool) (rootRel : List String)
    (rootStat : Option FSNode) :
    ∀ j ∈ scanJobsWith skip (some vendorRules) rootRel rootStat,
      "vendor" ∉ j.rel.dropLast := by
  rcases rootStat with _ | root
  · intro j hj
    simp [scanJobsWith, walkDirTop, scanWalkFn] at hj
  · rcases root with ⟨name, c⟩ | ⟨name, readErr, entries⟩
    · intro j hj
      unfold scanJobsWith walkDirTop at hj
      dsimp only at hj
      rcases scanWalkFn_file_jobs skip (some vendorRules) rootRel [] name c [] with h | h
      · rw [h] at hj
        simp at hj
      · rw [h] at hj
        have hj' : j = ⟨[], c⟩ := by simpa using hj
        subst hj'
        simp
    · intro j hj
      unfold scanJobsWith walkDirTop at hj
      dsimp only at hj
      have hstate : (scanWalkFn skip (some vendorRules) rootRel []
          (some ⟨name, true, none⟩) none []).1 = ([] : List FileJob) :=
        scanWalkFn_dir_jobs skip (some vendorRules) rootRel [] name none []
      rcases scanWalkFn_no_fail skip (some vendorRules) rootRel []
          (some ⟨name, true, none⟩) none [] with h | h
      · rw [h] at hj
        dsimp only at hj
        rw [hstate] at hj
        by_cases hre : readErr
        · rw [if_pos hre] at hj
          have hswallow : scanWalkFn skip (some vendorRules) rootRel []
              (some ⟨name, true, none⟩) (some "readdir error") ([] : List FileJob) =
              ([], WalkRet.ok) := rfl
          rw [hswallow] at hj
          dsimp only at hj
          exact walkEntries_vendor_never_below skip rootRel entries [] []
            (by simp) (by simp) j hj
        · rw [if_neg hre] at hj
          exact walkEntries_vendor_never_below skip rootRel entries [] []
            (by simp) (by simp) j hj
      · rw [h] at hj
        rw [hstate] at hj
        simp at hj

/-- C5: the rule-file line `vendor/` parses to the unanchored directory-only
rule with pattern `vendor`; the ignore engine then excludes, in directory
form, every path below the repo root whose basename is `vendor`, at any
depth; and consequently a scan running under that rule set never enqueues a
job from inside any directory named `vendor` (the directory is answered with
`SkipDir` and never descended into). -/
theorem c5_vendor_rule_excludes_dirs :
    vendorRules = [⟨"vendor".toList, false, false, true, false⟩] ∧
    (∀ rel : List Char, pathBase rel = "vendor".toList →
      gitIgnoreMatch vendorRules rel true = true) ∧
    (∀ (skip : String → Bool) (rootRel : List String) (rootStat : Option FSNode),
      ∀ j ∈ scanJobsWith skip (some vendorRules) rootRel rootStat,
        "vendor" ∉ j.rel.dropLast) :=
  ⟨by decide, fun rel h => vendorRules_match_dir rel h,
   fun skip rootRel rootStat => scanJobsWith_vendor_never_below skip rootRel rootStat⟩

/-- Witness for C5: the engine excludes the depth-two directory
`a/b/vendor`, and the one job of a concrete scan of `twoFileTree` (whose
`vendor` subdirectory holds a marker file) lies outside any `vendor`
directory. -/
theorem c5_vendor_rule_excludes_dirs_witness :
    gitIgnoreMatch vendorRules "a/b/vendor".toList true = true ∧
    "vendor" ∉ (FileJob.mk ["main.go"] (FileContent.lines ["// TODO: x"] false)).rel.dropLast :=
  ⟨c5_vendor_rule_excludes_dirs.2.1 "a/b/vendor".toList (by decide),
   c5_vendor_rule_excludes_dirs.2.2 (fun _ => false) [] (some twoFileTree)
     ⟨["main.go"], FileContent.lines ["// TODO: x"] false⟩ (by decide)⟩

/-! ### The annotation matcher's characterisation (claim C3) -/

/-- Helper: the head of a mapped non-trivial take. -/
theorem map_take_head (a : Char) (s' : List Char) (n : Nat) (f : Char → Char)
    (k : List Char) (h : ((a :: s').take (n + 1)).map f = k) : k.head? = some (f a) := by
  rw [← h]
  simp [List.take_succ_cons]

/-- Helper: `keywordAtHead` only answers with a keyword that matches
case-insensitively at the head. -/
theorem keywordAtHead_sound (s k : List Char) (h : keywordAtHead s = some k) :
    k ∈ markerKeywords ∧ (s.take k.length).map asciiUpper = k := by
  unfold keywordAtHead markerKeywords at h
  simp only [List.findSome?_cons, List.findSome?_nil] at h
  by_cases h1 : (s.take ("TODO".toList).length).map asciiUpper = "TODO".toList
  · rw [if_pos h1] at h
    cases h
    exact ⟨by simp [markerKeywords], h1⟩
  · rw [if_neg h1] at h
    by_cases h2 : (s.take ("FIXME".toList).length).map asciiUpper = "FIXME".toList
    · rw [if_pos h2] at h
      cases h
      exact ⟨by simp [markerKeywords], h2⟩
    · rw [if_neg h2] at h
      by_cases h3 : (s.take ("BUG".toList).length).map asciiUpper = "BUG".toList
      · rw [if_pos h3] at h
        cases h
        exact ⟨by simp [markerKeywords], h3⟩
      · rw [if_neg h3] at h
        by_cases h4 : (s.take ("NOTE".toList).length).map asciiUpper = "NOTE".toList
        · rw [if_pos h4] at h
          cases h
          exact ⟨by simp [markerKeywords], h4⟩
        · rw [if_neg h4] at h
          cases h

/-- Helper: `keywordAtHead` finds every keyword that matches at the head —
the four keywords start with pairwise distinct letters, so no earlier
alternative can shadow a matching one. -/
theorem keywordAtHead_complete (s k : List Char) (hk : k ∈ markerKeywords)
    (h : (s.take k.length).map asciiUpper = k) : keywordAtHead s = some k := by
  simp only [markerKeywords, List.mem_cons, List.mem_singleton, List.not_mem_nil,
    or_false] at hk
  cases s with
  | nil =>
    rcases hk with hk | hk | hk | hk <;> (subst hk; simp at h)
  | cons a s' =>
    rcases hk with hk | hk | hk | hk <;> subst hk
    · unfold keywordAtHead markerKeywords
      simp only [List.findSome?_cons]
      rw [if_pos h]
    · have ha : asciiUpper a = 'F' := by
        have h1 := map_take_head a s' 4 asciiUpper _ h
        simpa using h1.symm
      have hT : ¬ (((a :: s').take ("TODO".toList).length).map asciiUpper
          = "TODO".toList) := by
        intro hc
        have h1 := map_take_head a s' 3 asciiUpper _ hc
        rw [ha] at h1
        simp at h1
      unfold keywordAtHead markerKeywords
      simp only [List.findSome?_cons]
      rw [if_neg hT, if_pos h]
    · have ha : asciiUpper a = 'B' := by
        have h1 := map_take_head a s' 2 asciiUpper _ h
        simpa using h1.symm
      have hT : ¬ (((a :: s').take ("TODO".toList).length).map asciiUpper
          = "TODO".toList) := by
        intro hc
        have h1 := map_take_head a s' 3 asciiUpper _ hc
        rw [ha] at h1
        simp at h1
      have hF : ¬ (((a :: s').take ("FIXME".toList).length).map asciiUpper
          = "FIXME".toList) := by
        intro hc
        have h1 := map_take_head a s' 4 asciiUpper _ hc
        rw [ha] at h1
        simp at h1
      unfold keywordAtHead markerKeywords
      simp only [List.findSome?_cons]
      rw [if_neg hT, if_neg hF, if_pos h]
    · have ha : asciiUpper a = 'N' := by
        have h1 := map_take_head a s' 3 asciiUpper _ h
        simpa using h1.symm
      have hT : ¬ (((a :: s').take ("TODO".toList).length).map asciiUpper
          = "TODO".toList) := by
        intro hc
        have h1 := map_take_head a s' 3 asciiUpper _ hc
        rw [ha] at h1
        simp at h1
      have hF : ¬ (((a :: s').take ("FIXME".toList).length).map asciiUpper
          = "FIXME".toList) := by
        intro hc
        have h1 := map_take_head a s' 4 asciiUpper _ hc
        rw [ha] at h1
        simp at h1
      have hB : ¬ (((a :: s').take ("BUG".toList).length).map asciiUpper
          = "BUG".toList) := by
        intro hc
        have h1 := map_take_head a s' 2 asciiUpper _ hc
        rw [ha] at h1
        simp at h1
      unfold keywordAtHead markerKeywords
      simp only [List.findSome?_cons]
      rw [if_neg hT, if_neg hF, if_neg hB, if_pos h]

/-- Helper: what a `markerHere` hit means. -/
theorem markerHere_sound (prev : Option Char) (s k : List Char)
    (h : markerHere prev s = some k) :
    (prev.all fun c => !isWordChar c) = true ∧
    keywordAtHead s = some k ∧
    ((s.drop k.length).head?.all fun c => !isWordChar c) = true := by
  unfold markerHere at h
  by_cases hg : (prev.all fun c => !isWordChar c) = true
  · rw [if_pos hg] at h
    cases hkw : keywordAtHead s with
    | none => rw [hkw] at h; cases h
    | some k0 =>
      rw [hkw] at h
      dsimp only at h
      by_cases hb : ((s.drop k0.length).head?.all fun c => !isWordChar c) = true
      · rw [if_pos hb] at h
        injection h with hkk
        subst hkk
        exact ⟨hg, rfl, hb⟩
      · rw [if_neg hb] at h
        cases h
  · rw [if_neg hg] at h
    cases h

/-- Helper: `markerHere` hits whenever a whole-word keyword stands at the
head. -/
theorem markerHere_complete (prev : Option Char) (mid post k : List Char)
    (hk : k ∈ markerKeywords) (hmid : mid.map asciiUpper = k)
    (hg : (prev.all fun c => !isWordChar c) = true)
    (hb : (post.head?.all fun c => !isWordChar c) = true) :
    markerHere prev (mid ++ post) = some k := by
  have hlen : mid.length = k.length := by rw [← hmid]; simp
  have htake : ((mid ++ post).take k.length).map asciiUpper = k := by
    rw [← hlen, List.take_left]
    exact hmid
  have hdrop : (mid ++ post).drop k.length = post := by
    rw [← hlen, List.drop_left]
  unfold markerHere
  rw [if_pos hg, keywordAtHead_complete _ k hk htake]
  dsimp only
  rw [hdrop, if_pos hb]

/-- Helper: `lastOr` peels one consumed character. -/
theorem lastOr_cons (c : Char) (pre : List Char) (prev : Option Char) :
    lastOr (c :: pre) prev = lastOr pre (some c) := by
  cases pre with
  | nil => rfl
  | cons d pre' =>
    unfold lastOr
    rw [List.getLast?_cons_cons]
    cases hgl : (d :: pre').getLast? with
    | some x => rfl
    | none => simp at hgl

/-- Helper: with an empty consumed prefix, `lastOr` is the outer context. -/
theorem lastOr_nil (prev : Option Char) : lastOr [] prev = prev := rfl

/-- Helper: with no outer context, `lastOr` is the last consumed character. -/
theorem lastOr_none (pre : List Char) : lastOr pre none = pre.getLast? := by
  unfold lastOr
  cases pre.getLast? <;> rfl

/-- Helper: a `findMarker` hit is a whole-word keyword occurrence, and the
returned rest is the text after the keyword. -/
theorem findMarker_sound :
    ∀ (s : List Char) (prev : Option Char) (k rest : List Char),
      findMarker prev s = some (k, rest) →
      k ∈ markerKeywords ∧
      ∃ pre mid, s = pre ++ mid ++ rest ∧ mid.map asciiUpper = k ∧
        ((lastOr pre prev).all fun c => !isWordChar c) = true ∧
        ((rest.head?.all fun c => !isWordChar c) = true)
  | [], prev, k, rest => by
    intro h
    have hmh : markerHere prev [] = none := by
      unfold markerHere
      split <;> rfl
    rw [findMarker, hmh] at h
    cases h
  | c :: s', prev, k, rest => by
    intro h
    rw [findMarker] at h
    cases hmh : markerHere prev (c :: s') with
    | some k0 =>
      rw [hmh] at h
      dsimp only at h
      have hinj : k0 = k ∧ (c :: s').drop k0.length = rest := by simpa using h
      obtain ⟨hk0, hrest⟩ := hinj
      subst hk0
      obtain ⟨hg, hkw, hb⟩ := markerHere_sound prev (c :: s') k0 hmh
      obtain ⟨hmem, htake⟩ := keywordAtHead_sound (c :: s') k0 hkw
      subst hrest
      refine ⟨hmem, [], (c :: s').take k0.length, ?_, htake, ?_, hb⟩
      · simp [List.take_append_drop]
      · rw [lastOr_nil]
        exact hg
    | none =>
      rw [hmh] at h
      obtain ⟨hmem, pre, mid, hs, hmid, hg, hb⟩ := findMarker_sound s' (some c) k rest h
      refine ⟨hmem, c :: pre, mid, ?_, hmid, ?_, hb⟩
      · rw [List.cons_append, List.cons_append, hs]
      · rw [lastOr_cons]
        exact hg

/-- Helper: when `findMarker` reports no hit, no whole-word keyword
occurrence exists anywhere in the scanned suffix. -/
theorem findMarker_none_no_marker :
    ∀ (s : List Char) (prev : Option Char), findMarker prev s = none →
      ∀ (k pre mid post : List Char), k ∈ markerKeywords →
        s = pre ++ mid ++ post → mid.map asciiUpper = k →
        ((lastOr pre prev).all fun c => !isWordChar c) = true →
        ((post.head?.all fun c => !isWordChar c) = true) → False
  | [], prev, h, k, pre, mid, post => by
    intro hk hs hmid hg hb
    have hnil := hs.symm
    simp only [List.append_eq_nil] at hnil
    obtain ⟨⟨hpre, hmid0⟩, hpost⟩ := hnil
    subst hmid0
    simp only [List.map_nil] at hmid
    subst hmid
    exact absurd hk (by decide)
  | c :: s', prev, h, k, pre, mid, post => by
    intro hk hs hmid hg hb
    rw [findMarker] at h
    cases hmh : markerHere prev (c :: s') with
    | some k0 => rw [hmh] at h; cases h
    | none =>
      rw [hmh] at h
      cases pre with
      | nil =>
        rw [List.nil_append] at hs
        rw [lastOr_nil] at hg
        have : markerHere prev (c :: s') = some k := by
          rw [hs]
          exact markerHere_complete prev mid post k hk hmid hg hb
        rw [hmh] at this
        cases this
      | cons d pre' =>
        rw [List.cons_append, List.cons_append] at hs
        injection hs with hd hs'
        subst hd
        rw [lastOr_cons] at hg
        exact findMarker_none_no_marker s' (some c) h k pre' mid post hk hs' hmid hg hb

/-- C3: the matcher produces a record exactly on the lines containing one of
the four keywords as a whole word, case-insensitively; the record's tag is
the keyword upper-cased and its text is the characters after the keyword and
its optional colon, trimmed of surrounding whitespace; a line that is exactly
a keyword (no colon, no trailing text) yields the empty text, not a
non-match. -/
theorem c3_matcher_whole_word_keywords :
    (∀ line : List Char,
      (matchLine line = none ↔ ∀ k ∈ markerKeywords, ¬ WholeWordMarker line k)) ∧
    (∀ line tag text : List Char, matchLine line = some (tag, text) →
      tag ∈ markerKeywords ∧
      ∃ pre mid post, line = pre ++ mid ++ post ∧ mid.map asciiUpper = tag ∧
        (pre.getLast?.all fun c => !isWordChar c) = true ∧
        (post.head?.all fun c => !isWordChar c) = true ∧
        text = goTrimSpace (stripColon post)) ∧
    (∀ k ∈ markerKeywords, matchLine k = some (k, [])) := by
  have hsome : ∀ line tag text : List Char, matchLine line = some (tag, text) →
      tag ∈ markerKeywords ∧
      ∃ pre mid post, line = pre ++ mid ++ post ∧ mid.map asciiUpper = tag ∧
        (pre.getLast?.all fun c => !isWordChar c) = true ∧
        (post.head?.all fun c => !isWordChar c) = true ∧
        text = goTrimSpace (stripColon post) := by
    intro line tag text h
    unfold matchLine at h
    cases hf : findMarker none line with
    | none => rw [hf] at h; cases h
    | some kr =>
      rw [hf] at h
      cases h
      obtain ⟨hmem, pre, mid, hs, hmid, hg, hb⟩ :=
        findMarker_sound line none kr.1 kr.2 hf
      rw [lastOr_none] at hg
      exact ⟨hmem, pre, mid, kr.2, hs, hmid, hg, hb, rfl⟩
  refine ⟨?_, hsome, ?_⟩
  · intro line
    constructor
    · intro h k hk hww
      obtain ⟨pre, mid, post, hs, hmid, hgl, hb⟩ := hww
      have hnone : findMarker none line = none := by
        unfold matchLine at h
        cases hf : findMarker none line with
        | none => rfl
        | some kr => rw [hf] at h; cases h
      exact findMarker_none_no_marker line none hnone k pre mid post hk hs hmid
        (by rw [lastOr_none]; exact hgl) hb
    · intro h
      cases hf : findMarker none line with
      | none => unfold matchLine; rw [hf]
      | some kr =>
        obtain ⟨hmem, pre, mid, hs, hmid, hg, hb⟩ :=
          findMarker_sound line none kr.1 kr.2 hf
        rw [lastOr_none] at hg
        exact absurd ⟨pre, mid, kr.2, hs, hmid, hg, hb⟩ (h kr.1 hmem)
  · intro k hk
    simp only [markerKeywords, List.mem_cons, List.mem_singleton, List.not_mem_nil,
      or_false] at hk
    rcases hk with hk | hk | hk | hk <;> (subst hk; decide)

/-- Witness for C3: a hit with colon and text, the decomposition the theorem
returns for it, a bare-keyword line yielding empty text, and a no-keyword
line yielding no occurrence. -/
theorem c3_matcher_whole_word_keywords_witness :
    matchLine "// TODO: implement".toList = some ("TODO".toList, "implement".toList) ∧
    ("TODO".toList ∈ markerKeywords ∧
      ∃ pre mid post, "// TODO: implement".toList = pre ++ mid ++ post ∧
        mid.map asciiUpper = "TODO".toList ∧
        (pre.getLast?.all fun c => !isWordChar c) = true ∧
        (post.head?.all fun c => !isWordChar c) = true ∧
        "implement".toList = goTrimSpace (stripColon post)) ∧
    matchLine "BUG".toList = some ("BUG".toList, []) ∧
    (∀ k ∈ markerKeywords, ¬ WholeWordMarker "//random".toList k) :=
  ⟨by decide,
   c3_matcher_whole_word_keywords.2.1 "// TODO: implement".toList "TODO".toList
     "implement".toList (by decide),
   c3_matcher_whole_word_keywords.2.2 "BUG".toList (by decide),
   (c3_matcher_whole_word_keywords.1 "//random".toList).mp (by decide)⟩

/-! ### Fuel sufficiency for the glob matcher

The fuelled loops of the `path.Match` embedding consume at least one
character of their fuelled list per iteration; the lemmas below make that
precise: above the wrapper's `length + 1` the fuel does not influence the
result, so `pathMatch` is the total function computed by Go's loops. -/

/-- Helper: `scanChunkLoop` splits its input. -/
theorem scanChunkLoop_append : ∀ (b : Bool) (p : List Char),
    (scanChunkLoop b p).1 ++ (scanChunkLoop b p).2 = p
  | _, [] => rfl
  | inrange, c :: rest => by
    rw [scanChunkLoop.eq_def]
    dsimp only
    by_cases h1 : c = '\\'
    · rw [if_pos h1]
      cases rest with
      | nil => rfl
      | cons d rest' =>
        dsimp only
        rw [List.cons_append, List.cons_append, scanChunkLoop_append inrange rest']
    · rw [if_neg h1]
      by_cases h2 : c = '['
      · rw [if_pos h2]
        dsimp only
        rw [List.cons_append, scanChunkLoop_append true rest]
      · rw [if_neg h2]
        by_cases h3 : c = ']'
        · rw [if_pos h3]
          dsimp only
          rw [List.cons_append, scanChunkLoop_append false rest]
        · rw [if_neg h3]
          by_cases h4 : (c = '*' && !inrange) = true
          · rw [if_pos h4]
            rfl
          · rw [if_neg h4]
            dsimp only
            rw [List.cons_append, scanChunkLoop_append inrange rest]

/-- Helper: on input that does not start with `*`, the chunk is nonempty. -/
theorem scanChunkLoop_chunk_ne_nil (c : Char) (rest : List Char) (hc : ¬ c = '*') :
    (scanChunkLoop false (c :: rest)).1 ≠ [] := by
  rw [scanChunkLoop.eq_def]
  dsimp only
  by_cases h1 : c = '\\'
  · rw [if_pos h1]
    cases rest <;> simp
  · rw [if_neg h1]
    by_cases h2 : c = '['
    · rw [if_pos h2]; simp
    · rw [if_neg h2]
      by_cases h3 : c = ']'
      · rw [if_pos h3]; simp
      · rw [if_neg h3]
        have h4 : ¬ (c = '*' && !false) = true := by simp [hc]
        rw [if_neg h4]
        simp

/-- Helper: `scanChunk` strictly shrinks a nonempty pattern. -/
theorem scanChunk_rest_lt (p : List Char) (hp : p ≠ []) :
    (scanChunk p).2.2.length < p.length := by
  unfold scanChunk
  dsimp only
  cases p with
  | nil => exact absurd rfl hp
  | cons a t =>
    by_cases hstar : a = '*'
    · subst hstar
      have hdrop : ('*' :: t).dropWhile (fun c => c = '*') = t.dropWhile (fun c => c = '*') := by
        simp [List.dropWhile_cons]
      rw [hdrop]
      have hlen : (scanChunkLoop false (t.dropWhile (fun c => c = '*'))).1.length +
          (scanChunkLoop false (t.dropWhile (fun c => c = '*'))).2.length =
          (t.dropWhile (fun c => c = '*')).length := by
        rw [← List.length_append, scanChunkLoop_append]
      have hd : (t.dropWhile (fun c => c = '*')).length ≤ t.length :=
        List.Sublist.length_le (List.dropWhile_sublist _)
      simp only [List.length_cons]
      omega
    · have hdrop : (a :: t).dropWhile (fun c => c = '*') = a :: t := by
        simp [List.dropWhile_cons, hstar]
      rw [hdrop]
      have hlen : (scanChunkLoop false (a :: t)).1.length +
          (scanChunkLoop false (a :: t)).2.length = (a :: t).length := by
        rw [← List.length_append, scanChunkLoop_append]
      have hne := scanChunkLoop_chunk_ne_nil a t hstar
      have h1 : 1 ≤ (scanChunkLoop false (a :: t)).1.length := by
        cases hc : (scanChunkLoop false (a :: t)).1 with
        | nil => exact absurd hc hne
        | cons x xs => simp
      simp only [List.length_cons] at hlen ⊢
      omega

/-- Helper: `getEsc` strictly consumes its chunk. -/
theorem getEsc_length (chunk : List Char) (r : Char) (tail : List Char)
    (h : getEsc chunk = Except.ok (r, tail)) : tail.length < chunk.length := by
  unfold getEsc at h
  cases chunk with
  | nil => cases h
  | cons c rest =>
    dsimp only at h
    by_cases h1 : (c = '-' || c = ']') = true
    · rw [if_pos h1] at h; cases h
    · rw [if_neg h1] at h
      by_cases hbs : c = '\\'
      · rw [if_pos hbs] at h
        cases rest with
        | nil => cases h
        | cons r1 t1 =>
          dsimp only at h
          by_cases ht : t1.isEmpty
          · rw [if_pos ht] at h; cases h
          · rw [if_neg ht] at h
            injection h with hpair
            injection hpair with hr htail
            subst htail
            simp only [List.length_cons]
            omega
      · rw [if_neg hbs] at h
        dsimp only at h
        by_cases ht : rest.isEmpty
        · rw [if_pos ht] at h; cases h
        · rw [if_neg ht] at h
          injection h with hpair
          injection hpair with hr htail
          subst htail
          simp only [List.length_cons]
          omega

/-- Helper: a successful class parse strictly consumes the chunk. -/
theorem classLoop_length : ∀ (fuel : Nat) (r : Char) (m : Bool) (n : Nat)
    (chunk : List Char) (b : Bool) (ch' : List Char),
    classLoop r fuel m n chunk = Except.ok (b, ch') → ch'.length < chunk.length
  | 0, _, _, _, _, _, _ => by intro h; cases h
  | fuel + 1, r, m, n, chunk, b, ch' => by
    intro h
    rw [classLoop] at h
    by_cases hbr : (chunk.head? = some ']' && decide (n > 0)) = true
    · rw [if_pos hbr] at h
      injection h with hpair
      injection hpair with hb htail
      subst htail
      have : chunk ≠ [] := by
        intro hc
        subst hc
        simp at hbr
      cases chunk with
      | nil => exact absurd rfl this
      | cons x xs => simp
    · rw [if_neg hbr] at h
      cases hge : getEsc chunk with
      | error e => rw [hge] at h; cases h
      | ok lo1 =>
        rw [hge] at h
        dsimp only at h
        obtain ⟨lo, chunk1⟩ := lo1
        have hlt1 : chunk1.length < chunk.length := getEsc_length chunk lo chunk1 hge
        by_cases hd : chunk1.head? = some '-'
        · rw [if_pos hd] at h
          cases hge2 : getEsc chunk1.tail with
          | error e => rw [hge2] at h; cases h
          | ok hi1 =>
            rw [hge2] at h
            dsimp only at h
            obtain ⟨hi, chunk2⟩ := hi1
            have hlt2 : chunk2.length < chunk1.tail.length :=
              getEsc_length chunk1.tail hi chunk2 hge2
            have hlt3 : chunk1.tail.length ≤ chunk1.length := by
              cases chunk1 <;> simp
            have := classLoop_length fuel r (m || (lo ≤ r && r ≤ hi)) (n + 1) chunk2 b ch' h
            omega
        · rw [if_neg hd] at h
          dsimp only at h
          have := classLoop_length fuel r (m || (lo ≤ r && r ≤ lo)) (n + 1) chunk1 b ch' h
          omega

/-- Helper: the class-parsing loop is fuel-insensitive above the chunk
length. -/
theorem classLoop_fuel : ∀ (f1 f2 : Nat) (r : Char) (m : Bool) (n : Nat)
    (chunk : List Char), chunk.length < f1 → chunk.length < f2 →
    classLoop r f1 m n chunk = classLoop r f2 m n chunk
  | 0, _, _, _, _, _ => by omega
  | _ + 1, 0, _, _, _, _ => by omega
  | f1 + 1, f2 + 1, r, m, n, chunk => by
    intro h1 h2
    rw [classLoop, classLoop]
    by_cases hbr : (chunk.head? = some ']' && decide (n > 0)) = true
    · rw [if_pos hbr, if_pos hbr]
    · rw [if_neg hbr, if_neg hbr]
      cases hge : getEsc chunk with
      | error e => rfl
      | ok lo1 =>
        dsimp only
        obtain ⟨lo, chunk1⟩ := lo1
        have hlt1 : chunk1.length < chunk.length := getEsc_length chunk lo chunk1 hge
        by_cases hd : chunk1.head? = some '-'
        · rw [if_pos hd]
          cases hge2 : getEsc chunk1.tail with
          | error e => rfl
          | ok hi1 =>
            dsimp only
            obtain ⟨hi, chunk2⟩ := hi1
            have hlt2 : chunk2.length < chunk1.tail.length :=
              getEsc_length chunk1.tail hi chunk2 hge2
            have hlt3 : chunk1.tail.length ≤ chunk1.length := by
              cases chunk1 <;> simp
            exact classLoop_fuel f1 f2 r (m || (lo ≤ r && r ≤ hi)) (n + 1) chunk2
              (by omega) (by omega)
        · rw [if_neg hd]
          dsimp only
          exact classLoop_fuel f1 f2 r (m || (lo ≤ r && r ≤ lo)) (n + 1) chunk1
            (by omega) (by omega)

/-- Helper: the chunk matcher is fuel-insensitive above the chunk length. -/
theorem matchChunk_fuel : ∀ (f1 f2 : Nat) (chunk s : List Char) (failed0 : Bool),
    chunk.length < f1 → chunk.length < f2 →
    matchChunk f1 chunk s failed0 = matchChunk f2 chunk s failed0
  | 0, _, _, _, _ => by omega
  | _ + 1, 0, _, _, _ => by omega
  | f1 + 1, f2 + 1, chunk, s, failed0 => by
    intro h1 h2
    rw [matchChunk.eq_def, matchChunk.eq_def]
    cases chunk with
    | nil => rfl
    | cons c rest =>
      dsimp only
      simp only [List.length_cons] at h1 h2
      by_cases hc1 : c = '['
      · rw [if_pos hc1, if_pos hc1]
        have hch1 : (if rest.head? = some '^' then rest.tail else rest).length ≤
            rest.length := by
          split
          · cases rest <;> simp
          · exact Nat.le_refl _
        cases hcl : classLoop (if (failed0 || s.isEmpty) then Char.ofNat 0
              else s.headD (Char.ofNat 0))
            ((if rest.head? = some '^' then rest.tail else rest).length + 1) false 0
            (if rest.head? = some '^' then rest.tail else rest) with
        | error e => rfl
        | ok p =>
          obtain ⟨m, chunk2⟩ := p
          have hlt : chunk2.length <
              (if rest.head? = some '^' then rest.tail else rest).length :=
            classLoop_length _ _ _ _ _ _ _ hcl
          exact matchChunk_fuel f1 f2 chunk2 _ _ (by omega) (by omega)
      · rw [if_neg hc1, if_neg hc1]
        by_cases hc2 : c = '?'
        · rw [if_pos hc2, if_pos hc2]
          exact matchChunk_fuel f1 f2 rest _ _ (by omega) (by omega)
        · rw [if_neg hc2, if_neg hc2]
          by_cases hc3 : c = '\\'
          · rw [if_pos hc3, if_pos hc3]
            cases rest with
            | nil => rfl
            | cons d rest' =>
              dsimp only
              simp only [List.length_cons] at h1 h2
              exact matchChunk_fuel f1 f2 rest' _ _ (by omega) (by omega)
          · rw [if_neg hc3, if_neg hc3]
            exact matchChunk_fuel f1 f2 rest _ _ (by omega) (by omega)

/-- Helper: the pattern-validation loop is fuel-insensitive above the
pattern length. -/
theorem validateRest_fuel : ∀ (f1 f2 : Nat) (p : List Char),
    p.length < f1 → p.length < f2 → validateRest f1 p = validateRest f2 p
  | 0, _, _ => by omega
  | _ + 1, 0, _ => by omega
  | f1 + 1, f2 + 1, p => by
    intro h1 h2
    cases p with
    | nil => rfl
    | cons c rest =>
      rw [validateRest, validateRest]
      cases hmc : matchChunk ((scanChunk (c :: rest)).2.1.length + 1)
          (scanChunk (c :: rest)).2.1 (scanChunk (c :: rest)).2.1 false with
      | error e => rfl
      | ok v =>
        have hlt := scanChunk_rest_lt (c :: rest) (by simp)
        exact validateRest_fuel f1 f2 (scanChunk (c :: rest)).2.2
          (by omega) (by omega)

/-- Helper: Go `Match`'s outer loop is fuel-insensitive above the pattern
length — so `pathMatch`'s `length + 1` fuel computes the loop's total
result. -/
theorem goPathMatch_fuel : ∀ (f1 f2 : Nat) (p name : List Char),
    p.length < f1 → p.length < f2 →
    goPathMatch f1 p name = goPathMatch f2 p name
  | 0, _, _, _ => by omega
  | _ + 1, 0, _, _ => by omega
  | f1 + 1, f2 + 1, p, name => by
    intro h1 h2
    cases p with
    | nil => rfl
    | cons c rest =>
      rw [goPathMatch, goPathMatch]
      have hlt := scanChunk_rest_lt (c :: rest) (by simp)
      by_cases hst : ((scanChunk (c :: rest)).1 && (scanChunk (c :: rest)).2.1.isEmpty) = true
      · rw [if_pos hst, if_pos hst]
      · rw [if_neg hst, if_neg hst]
        cases hmc : matchChunk ((scanChunk (c :: rest)).2.1.length + 1)
            (scanChunk (c :: rest)).2.1 name false with
        | error e => rfl
        | ok v =>
          cases v with
          | none =>
            dsimp only
            by_cases hstar : (scanChunk (c :: rest)).1 = true
            · rw [if_pos hstar, if_pos hstar]
              cases hsl : starLoop (scanChunk (c :: rest)).2.1
                  (!(scanChunk (c :: rest)).2.2.isEmpty) name with
              | error e => rfl
              | ok w =>
                cases w with
                | none => rfl
                | some t' => exact goPathMatch_fuel f1 f2 _ t' (by omega) (by omega)
            · rw [if_neg hstar, if_neg hstar]
          | some t =>
            dsimp only
            by_cases htr : (t.isEmpty || !(scanChunk (c :: rest)).2.2.isEmpty) = true
            · rw [if_pos htr, if_pos htr]
              exact goPathMatch_fuel f1 f2 _ t (by omega) (by omega)
            · rw [if_neg htr, if_neg htr]
              by_cases hstar : (scanChunk (c :: rest)).1 = true
              · rw [if_pos hstar, if_pos hstar]
                cases hsl : starLoop (scanChunk (c :: rest)).2.1
                    (!(scanChunk (c :: rest)).2.2.isEmpty) name with
                | error e => rfl
                | ok w =>
                  cases w with
                  | none => rfl
                  | some t' => exact goPathMatch_fuel f1 f2 _ t' (by omega) (by omega)
              · rw [if_neg hstar, if_neg hstar]

/-- The `length + 1` fuel of `pathMatch` is sufficient: any larger fuel
computes the same result, so the embedding is the total function Go's
`path.Match` computes. -/
theorem pathMatch_fuel_sufficient (pattern name : List Char) (fuel : Nat)
    (h : pattern.length < fuel) :
    goPathMatch fuel pattern name = pathMatch pattern name :=
  goPathMatch_fuel fuel (pattern.length + 1) pattern name h (Nat.lt_succ_self _)

end TodoTotum
